import Mathlib

/-!
# A verification development for the `naduke` file-renaming tool

This file gives a shallow embedding, in Lean 4, of the semantic core of the
`naduke` Go program (package `internal/naduke`): the sample reader, the text
guard, the name sanitizer, the suggestion validator, the model-client response
handling, and the rename / destination-path resolver.  Go strings are embedded
as lists of bytes (`List Nat`, each entry `< 256`) where byte-level behaviour
matters (UTF-8 validity, sanitization), and as lists of characters
(`List Char`) for filesystem paths, where every operation the code performs
scans for ASCII delimiters (`/` and `.`) so the byte- and character-level views
agree on valid UTF-8 paths.  The filesystem is embedded as the list of
currently existing paths, and the HTTP layer as the pure function from the
response (status code, body, decoded JSON structure) to the result, exactly
following the code after the transport returns.
-/

namespace Naduke

/-! ## UTF-8 byte-level model (Go `unicode/utf8`)

Mirrors the `first`/`acceptRanges` tables of Go's `unicode/utf8` package:
a first byte `0x00..0x7F` is a one-byte rune; `0xC2..0xDF` starts a two-byte
rune; `0xE0..0xEF` a three-byte rune; `0xF0..0xF4` a four-byte rune; all other
first bytes are invalid.  The admissible range of the second byte depends on
the first (`0xE0 → A0..BF`, `0xED → 80..9F`, `0xF0 → 90..BF`, `0xF4 → 80..8F`,
otherwise `80..BF`); later bytes must be `80..BF`. -/

/-- Lower bound for the second byte of a multi-byte sequence headed by `b1`
(Go's `acceptRanges` table). -/
def acceptLo (b1 : Nat) : Nat :=
  if b1 = 0xE0 then 0xA0 else if b1 = 0xF0 then 0x90 else 0x80

/-- Upper bound for the second byte of a multi-byte sequence headed by `b1`
(Go's `acceptRanges` table). -/
def acceptHi (b1 : Nat) : Nat :=
  if b1 = 0xED then 0x9F else if b1 = 0xF4 then 0x8F else 0xBF

/-- Is `b` a UTF-8 continuation byte (`0x80..0xBF`)? -/
def isCont (b : Nat) : Bool := decide (0x80 ≤ b ∧ b ≤ 0xBF)

/-- The validity loop of Go `utf8.ValidString`, processed one byte at a time:
`need` counts the continuation bytes still owed by the current sequence, and
`lo`/`hi` bound the next byte (the `acceptRanges` entry for the byte right
after the lead byte, then `80..BF`).  At `need = 0` the next byte is
classified by the `first` table: ASCII passes, `80..C1` and `F5..FF` fail,
`C2..DF`/`E0..EF`/`F0..F4` owe one, two and three continuation bytes.
Running out of bytes mid-sequence fails, exactly as Go's `i+size > n`
check. -/
def utf8Loop : Nat → Nat → Nat → List Nat → Bool
  | 0, _, _, [] => true
  | _ + 1, _, _, [] => false
  | 0, _, _, b :: rest =>
    if b ≤ 0x7F then utf8Loop 0 0 0 rest
    else if b < 0xC2 then false
    else if b ≤ 0xDF then utf8Loop 1 (acceptLo b) (acceptHi b) rest
    else if b ≤ 0xEF then utf8Loop 2 (acceptLo b) (acceptHi b) rest
    else if b ≤ 0xF4 then utf8Loop 3 (acceptLo b) (acceptHi b) rest
    else false
  | need + 1, lo, hi, b :: rest =>
    decide (lo ≤ b ∧ b ≤ hi) && utf8Loop need 0x80 0xBF rest

/-- Byte-level UTF-8 validity, mirroring Go `utf8.ValidString`. -/
def validUTF8 (l : List Nat) : Bool := utf8Loop 0 0 0 l

/-! ## Sample reader (`ReadSample`, naduke.go lines 178–191)

`ReadSample` opens the file and performs a single `f.Read` into a buffer of
`readBytes` bytes, returning `string(buf[:n])`.  On the successful path the
read fills the buffer as far as the file content allows, so the returned
sample is exactly the first `min(readBytes, len(content))` bytes of the file,
with no post-processing of any kind. -/

/-- The fixed read bound (`readBytes = 8 * 1024` in naduke.go). -/
def readBytes : Nat := 8 * 1024

/-- Successful-path model of `ReadSample`: the raw first
`min(readBytes, length)` bytes of the file content. -/
def ReadSample (content : List Nat) : List Nat := content.take readBytes

/-! ## Text guard (`EnsureTextSample`, naduke.go lines 193–204) -/

/-- Model of `EnsureTextSample`: accepts the empty sample unchanged, then
rejects samples containing a NUL byte, then samples that are not valid UTF-8,
and passes everything else through unchanged.  (A `0x00` byte in a Go string
is always the rune `'\x00'`, since continuation bytes are `≥ 0x80`, so
`strings.ContainsRune(sample, '\x00')` is a byte-level containment test.) -/
def EnsureTextSample (sample : List Nat) (path : String) : Except String (List Nat) :=
  if sample = [] then .ok []
  else if sample.contains 0 then
    .error (path ++ " does not look like a text file (NUL byte found)")
  else if validUTF8 sample = false then
    .error (path ++ " is not valid UTF-8 text")
  else .ok sample

/-! ## Rune decoding (Go `utf8.DecodeRuneInString` / `DecodeLastRuneInString`)

The sanitizer calls `strings.TrimSpace` and `strings.ToLower`, both of which
walk the string rune by rune with Go's decoder: an invalid or truncated
sequence decodes to `(RuneError, 1)` (`RuneError = U+FFFD`). -/

/-- The Unicode replacement character `U+FFFD` (Go `utf8.RuneError`). -/
def runeError : Nat := 0xFFFD

/-- Multi-byte arm of Go `utf8.DecodeRuneInString`: decode the sequence led
by the non-ASCII byte `b1` followed by `rest`, yielding `(RuneError, 1)` on a
bad lead byte, an out-of-range continuation byte, or a short input. -/
def decodeMulti (b1 : Nat) (rest : List Nat) : Nat × Nat :=
  if b1 < 0xC2 ∨ 0xF4 < b1 then (runeError, 1)
  else if b1 ≤ 0xDF then
    match rest with
    | b2 :: _ =>
      if decide (acceptLo b1 ≤ b2 ∧ b2 ≤ acceptHi b1) then
        ((b1 - 0xC0) * 0x40 + (b2 - 0x80), 2)
      else (runeError, 1)
    | [] => (runeError, 1)
  else if b1 ≤ 0xEF then
    match rest with
    | b2 :: b3 :: _ =>
      if decide (acceptLo b1 ≤ b2 ∧ b2 ≤ acceptHi b1) then
        if isCont b3 then ((b1 - 0xE0) * 0x1000 + (b2 - 0x80) * 0x40 + (b3 - 0x80), 3)
        else (runeError, 1)
      else (runeError, 1)
    | _ => (runeError, 1)
  else
    match rest with
    | b2 :: b3 :: b4 :: _ =>
      if decide (acceptLo b1 ≤ b2 ∧ b2 ≤ acceptHi b1) then
        if isCont b3 && isCont b4 then
          ((b1 - 0xF0) * 0x40000 + (b2 - 0x80) * 0x1000 + (b3 - 0x80) * 0x40 + (b4 - 0x80), 4)
        else (runeError, 1)
      else (runeError, 1)
    | _ => (runeError, 1)

/-- Model of Go `utf8.DecodeRuneInString`: the first rune of the byte list and
the number of bytes it occupies; `(RuneError, 1)` on an invalid or truncated
sequence, `(RuneError, 0)` on the empty string. -/
def decodeRune : List Nat → Nat × Nat
  | [] => (runeError, 0)
  | b1 :: rest => if b1 ≤ 0x7F then (b1, 1) else decodeMulti b1 rest

/-- Model of Go `utf8.EncodeRune` (canonical UTF-8 encoding; surrogates and
out-of-range values encode as `RuneError`). -/
def encodeRune (r : Nat) : List Nat :=
  if r < 0x80 then [r]
  else if r < 0x800 then [0xC0 + r / 0x40, 0x80 + r % 0x40]
  else if (0xD800 ≤ r ∧ r ≤ 0xDFFF) ∨ 0x10FFFF < r then [0xEF, 0xBF, 0xBD]
  else if r < 0x10000 then [0xE0 + r / 0x1000, 0x80 + r / 0x40 % 0x40, 0x80 + r % 0x40]
  else [0xF0 + r / 0x40000, 0x80 + r / 0x1000 % 0x40, 0x80 + r / 0x40 % 0x40, 0x80 + r % 0x40]

/-- Go `utf8.RuneStart`: a byte that is not a continuation byte. -/
def runeStart (b : Nat) : Bool := !(isCont b)

/-- The backward scan of Go `utf8.DecodeLastRuneInString`: given the
non-ASCII last byte `b1` and the rest of the REVERSED string, the window
`s[start:end]` that Go decodes, in forward order — Go walks back at most
`UTFMax` positions from `end-2` looking for a rune-start byte and clamps at
the string start. -/
def lastRuneWindow (b1 : Nat) (rest : List Nat) : List Nat :=
  match rest with
  | [] => [b1]
  | b2 :: rest2 =>
    if runeStart b2 then [b2, b1]
    else match rest2 with
    | [] => [b2, b1]
    | b3 :: rest3 =>
      if runeStart b3 then [b3, b2, b1]
      else match rest3 with
      | [] => [b3, b2, b1]
      | b4 :: rest4 =>
        if runeStart b4 then [b4, b3, b2, b1]
        else match rest4 with
        | [] => [b4, b3, b2, b1]
        | b5 :: _ => [b5, b4, b3, b2, b1]

/-- Model of Go `utf8.DecodeLastRuneInString`, phrased on the REVERSED byte
list (head = last byte of the string).  Go scans back for a rune-start byte,
decodes the window from there, and returns `(RuneError, 1)` unless the
decoded size covers exactly the scanned window. -/
def decodeLastRune : List Nat → Nat × Nat
  | [] => (runeError, 0)
  | b1 :: rest =>
    if b1 ≤ 0x7F then (b1, 1)
    else
      let window := lastRuneWindow b1 rest
      let rs := decodeRune window
      if rs.2 = window.length then rs else (runeError, 1)

/-! ## Name sanitizer (`SanitizeName`, naduke.go lines 206–221)

```go
func SanitizeName(raw string) string {
    name := strings.TrimSpace(raw)
    if idx := strings.IndexByte(name, '\n'); idx >= 0 { name = name[:idx] }
    name = strings.ToLower(name)
    name = invalidChars.ReplaceAllString(name, "_")   // [^a-z0-9_] → _
    if len(name) > 30 { name = name[:30] }
    name = strings.Trim(name, "_")
    if name == "" { return "file" }
    return name
}
```

The loops over runes (`TrimSpace`, `ToLower`, the regexp replacement) are
embedded with an explicit fuel argument; every iteration consumes at least one
byte, so fuel equal to the byte length makes the fuelled function coincide
with Go's unbounded loop. -/

/-- Go `unicode.IsSpace`: the Unicode `White_Space` property. -/
def isSpaceRune (r : Nat) : Bool :=
  decide ((9 ≤ r ∧ r ≤ 13) ∨ r = 32 ∨ r = 0x85 ∨ r = 0xA0 ∨ r = 0x1680 ∨
    (0x2000 ≤ r ∧ r ≤ 0x200A) ∨ r = 0x2028 ∨ r = 0x2029 ∨ r = 0x202F ∨ r = 0x205F ∨
    r = 0x3000)

/-- Does the byte belong to the sanitizer's kept alphabet `[a-z0-9_]`
(the complement of the `invalidChars` regexp)? -/
def isNameChar (b : Nat) : Bool :=
  decide ((97 ≤ b ∧ b ≤ 122) ∨ (48 ≤ b ∧ b ≤ 57) ∨ b = 95)

/-- Model of Go `unicode.ToLower` as used through `strings.ToLower`.  The
ASCII branch (`A`-`Z` ↦ `a`-`z`) is exact.  Of Go's non-ASCII case mappings,
only `U+0130 ↦ i` and `U+212A ↦ k` land in the sanitizer's kept alphabet
`[a-z0-9_]`; they are included exactly.  Every other non-ASCII rune is left
unchanged here, which is observationally equal for `SanitizeName`: both the
rune and its Go lowercase form lie outside `[a-z0-9_]` and are replaced by a
single `_` by the subsequent regexp step. -/
def toLowerRune (r : Nat) : Nat :=
  if 65 ≤ r ∧ r ≤ 90 then r + 32
  else if r = 0x130 then 0x69
  else if r = 0x212A then 0x6B
  else r

/-- Leading-whitespace trimming (the left half of Go `strings.TrimSpace`):
repeatedly decode the first rune and drop it while it satisfies
`unicode.IsSpace`.  Every loop below carries an explicit fuel argument;
each iteration consumes at least one byte, so fuel equal to the byte length
makes the fuelled loop coincide with Go's unbounded one. -/
def trimLeftSpace : Nat → List Nat → List Nat
  | 0, l => l
  | _ + 1, [] => []
  | fuel + 1, b :: rest =>
    let rs := decodeRune (b :: rest)
    if isSpaceRune rs.1 then trimLeftSpace fuel ((b :: rest).drop rs.2) else b :: rest

/-- Trailing-whitespace trimming on the REVERSED byte list (the right half of
Go `strings.TrimSpace`, which decodes the last rune with
`DecodeLastRuneInString`). -/
def trimRightSpaceRev : Nat → List Nat → List Nat
  | 0, rl => rl
  | _ + 1, [] => []
  | fuel + 1, b :: rest =>
    let rs := decodeLastRune (b :: rest)
    if isSpaceRune rs.1 then trimRightSpaceRev fuel ((b :: rest).drop rs.2) else b :: rest

/-- Model of Go `strings.TrimSpace`. -/
def trimSpace (l : List Nat) : List Nat :=
  let a := trimLeftSpace l.length l
  (trimRightSpaceRev a.length a.reverse).reverse

/-- Model of `name[:idx]` for `idx := strings.IndexByte(name, '\n')`:
`List.indexOf` returns the length when the byte is absent, in which case the
`take` keeps the whole list, matching Go's `idx < 0` no-op branch. -/
def cutAtNewline (l : List Nat) : List Nat := l.take (l.indexOf 10)

/-- Model of Go `strings.ToLower` (via `strings.Map`): decode each rune,
lower-case it, and write the canonical encoding of the result; an invalid
byte decodes to `RuneError` and is written out as the three-byte encoding of
`U+FFFD`, exactly as `strings.Map` does. -/
def toLowerBytes : Nat → List Nat → List Nat
  | 0, l => l
  | _ + 1, [] => []
  | fuel + 1, b :: rest =>
    let rs := decodeRune (b :: rest)
    encodeRune (toLowerRune rs.1) ++ toLowerBytes fuel ((b :: rest).drop rs.2)

/-- Model of `invalidChars.ReplaceAllString(name, "_")` for
`invalidChars = [^a-z0-9_]`: the regexp matches one rune at a time; a kept
rune is necessarily a single byte of the ASCII class, every other rune
(one byte per invalid-encoding byte) becomes a single `_`. -/
def replaceInvalid : Nat → List Nat → List Nat
  | 0, _ => []
  | _ + 1, [] => []
  | fuel + 1, b :: rest =>
    if isNameChar b then b :: replaceInvalid fuel rest
    else
      let rs := decodeRune (b :: rest)
      95 :: replaceInvalid fuel (rest.drop (rs.2 - 1))

/-- Model of `strings.Trim(name, "_")`: drop `_` bytes from both ends. -/
def trimUnderscore (l : List Nat) : List Nat :=
  ((l.dropWhile (· == 95)).reverse.dropWhile (· == 95)).reverse

/-- The fallback token `"file"` as bytes. -/
def fileFallback : List Nat := [102, 105, 108, 101]

/-- `SanitizeName` up to (but not including) the empty-fallback check. -/
def SanitizeCore (raw : List Nat) : List Nat :=
  let name := trimSpace raw
  let name := cutAtNewline name
  let name := toLowerBytes name.length name
  let name := replaceInvalid name.length name
  let name := if 30 < name.length then name.take 30 else name
  trimUnderscore name

/-- Model of `SanitizeName` (naduke.go lines 206–221). -/
def SanitizeName (raw : List Nat) : List Nat :=
  let name := SanitizeCore raw
  if name = [] then fileFallback else name

/-- ASCII byte encoding of a Lean string literal, for stating test vectors. -/
def strBytes (s : String) : List Nat := s.data.map Char.toNat

/-! ## Path arithmetic (Go `path/filepath`, Unix rules)

`RenameFile` computes `filepath.Join(filepath.Dir(path), newName+filepath.Ext(path))`
and compares `filepath.Abs` of source and destination.  Paths are embedded as
`List Char`; every scan the code performs looks for the ASCII bytes `/` and
`.`, which cannot occur inside a multi-byte UTF-8 sequence, so the character
view agrees with Go's byte view on valid UTF-8 paths. -/

/-- Split a path into its `/`-separated elements. -/
def splitOnSepAux : List Char → List Char → List (List Char)
  | [], acc => [acc.reverse]
  | c :: rest, acc =>
    if c = '/' then acc.reverse :: splitOnSepAux rest [] else splitOnSepAux rest (c :: acc)

/-- Split a path into its `/`-separated elements. -/
def splitOnSep (l : List Char) : List (List Char) := splitOnSepAux l []

/-- One step of `filepath.Clean`'s element processing: empty and `.` elements
vanish; `..` pops the previous element when one is available, is dropped at
the root, and is kept when a relative path cannot backtrack; any other
element is appended. -/
def cleanStep (rooted : Bool) (out : List (List Char)) (el : List Char) : List (List Char) :=
  if el = [] ∨ el = ['.'] then out
  else if el = ['.', '.'] then
    if out ≠ [] ∧ out.getLast? ≠ some ['.', '.'] then out.dropLast
    else if rooted then out
    else out ++ [['.', '.']]
  else out ++ [el]

/-- Join path elements back with `/` separators. -/
def joinElems : List (List Char) → List Char
  | [] => []
  | e :: rest => if rest = [] then e else e ++ '/' :: joinElems rest

/-- Model of Go `filepath.Clean` (Unix: the volume name is empty). -/
def clean (p : List Char) : List Char :=
  if p = [] then ['.']
  else
    let rooted := p.head? = some '/'
    let out := (splitOnSep p).foldl (cleanStep rooted) []
    let joined := (if rooted then ['/'] else []) ++ joinElems out
    if joined = [] then ['.'] else joined

/-- Model of Go `filepath.Dir`: `Clean` of everything up to and including the
final separator (`Clean("") = "."` when there is none). -/
def dirPath (p : List Char) : List Char :=
  clean (p.reverse.dropWhile (· ≠ '/')).reverse

/-- Backward scan of `filepath.Ext`: walking the reversed path, collect bytes
until the final `.` of the last element (then return from the dot to the
end), stopping empty at a separator or at the start. -/
def extAux : List Char → List Char → List Char
  | [], _ => []
  | c :: rest, acc =>
    if c = '/' then [] else if c = '.' then '.' :: acc else extAux rest (c :: acc)

/-- Model of Go `filepath.Ext`: the suffix beginning at the final dot in the
final slash-separated element; empty if there is no dot. -/
def extPath (p : List Char) : List Char := extAux p.reverse []

/-- Model of Go `filepath.Join` on two elements: skip leading empty elements,
then `Clean` the `/`-joined rest. -/
def joinPath (a b : List Char) : List Char :=
  if a = [] then (if b = [] then [] else clean b)
  else clean (a ++ '/' :: b)

/-- Go `filepath.IsAbs` (Unix). -/
def isAbs (p : List Char) : Bool := p.head? = some '/'

/-- Model of Go `filepath.Abs` with the working directory made explicit:
`Clean(path)` when absolute, else `Join(cwd, path)`. -/
def absPath (cwd p : List Char) : List Char := if isAbs p then clean p else joinPath cwd p

/-! ## Rename / destination resolver (`RenameFile`, naduke.go lines 223–249)

The filesystem is embedded as the list of currently existing paths;
`os.Stat(p)` succeeds exactly when `p` is in the list, and `os.Rename`
replaces the source entry by the destination entry.  `RenameFile` returns the
filesystem after the call together with the `error` result; both error
returns happen before `os.Rename` runs, so they leave the filesystem
untouched by construction of the source code, which the model reflects. -/

/-- The destination path computed by `RenameFile` (naduke.go lines 224–226):
`filepath.Join(filepath.Dir(path), newName+filepath.Ext(path))`. -/
def destination (path newName : List Char) : List Char :=
  joinPath (dirPath path) (newName ++ extPath path)

/-- Model of `RenameFile`.  `cwd` is the working directory used by
`filepath.Abs`, `fs` the set of existing paths.  In order, as in the source:
the no-op branch when source and destination absolutize identically, the
destination-conflict error, then the rename itself (which fails if the source
does not exist, as `os.Rename` would). -/
def RenameFile (cwd : List Char) (fs : List (List Char)) (path newName : List Char) :
    List (List Char) × Except String Unit :=
  let dest := destination path newName
  if absPath cwd path = absPath cwd dest then (fs, .ok ())
  else if fs.contains dest then
    (fs, .error ("destination already exists - " ++ String.mk dest))
  else if fs.contains path then ((fs.erase path).concat dest, .ok ())
  else (fs, .error "rename: no such file or directory")

/-! ## Model client response handling (`GenerateName`, naduke.go lines 148–176)

After the HTTP transport returns, `GenerateName` reads the body, rejects any
status outside `200..299` with an error carrying the status and the raw body,
unmarshals the JSON into `chatResponse`, and extracts the name with a
three-case switch.  The transport and the JSON decoder are external; the
decoder's output is passed in as an `Option chatResponse` (`none` = the body
did not unmarshal). -/

/-- Wire struct `chatMessage`. -/
structure chatMessage where
  role : String
  content : String
deriving DecidableEq

/-- Wire struct `chatResponse`: `Message` is a pointer in Go (`none` = absent
or JSON `null`), `Response` a plain string (`""` when the key is absent). -/
structure chatResponse where
  message : Option chatMessage
  response : String
deriving DecidableEq

/-- The three-case `switch` of `GenerateName` (naduke.go lines 168–175). -/
def extractName (decoded : chatResponse) : Except String String :=
  match decoded.message with
  | some m =>
    if m.content ≠ "" then .ok m.content
    else if decoded.response ≠ "" then .ok decoded.response
    else .error "empty response from model"
  | none =>
    if decoded.response ≠ "" then .ok decoded.response
    else .error "empty response from model"

/-- The decode-and-extract region of `GenerateName` (naduke.go lines
163–175): a failed `json.Unmarshal` is the wrapped parse error, a decoded
struct goes through the extraction switch. -/
def parsedName : Option chatResponse → Except String String
  | none => .error "parse response: invalid JSON"
  | some d => extractName d

/-- Response handling of `GenerateName` from the point the body has been read
(naduke.go lines 159–175): the non-2xx guard, then JSON decoding (`decoded`,
left abstract), then the extraction switch. -/
def GenerateNameResponse (status : Nat) (body : String) (decoded : Option chatResponse) :
    Except String String :=
  if status < 200 ∨ 300 ≤ status then
    .error ("model request failed (" ++ toString status ++ "): " ++ body)
  else parsedName decoded

/-! ## Suggestion validator -/

/-- Modelled from the spec: the production `ValidateSuggestion` is not among
the sources (only its test, `TestValidateSuggestion`, survives in the
repository), so this follows spec §4.5: reject the empty token, tokens longer
than 30 characters, and tokens with a character outside `[a-z0-9_]`, naming
the violated rule; return the token unchanged otherwise.  On the accepted set
every byte is ASCII, so byte count and character count coincide. -/
def ValidateSuggestion (s : List Nat) : Except String (List Nat) :=
  if s = [] then .error "suggestion is empty"
  else if 30 < s.length then .error "suggestion is longer than 30 characters"
  else if s.all isNameChar then .ok s
  else .error "suggestion contains a character outside a-z, 0-9, _"

/-- The final `/`-separated element of a path (used to state the hidden-file
claim about `filepath.Ext`). -/
def baseName (p : List Char) : List Char := (p.reverse.takeWhile (· ≠ '/')).reverse

/-- The sanitizer's kept alphabet `[a-z0-9_]`, on characters (the form a
sanitized name has when handed to `RenameFile`). -/
def isNameCharC (c : Char) : Bool :=
  decide ((('a' : Char) ≤ c ∧ c ≤ 'z') ∨ (('0' : Char) ≤ c ∧ c ≤ '9') ∨ c = '_')

/-! # Theorems

First the sanity layer: the embedded functions reproduce the repository's own
unit-test vectors.  Then the claim theorems. -/

/-- `TestSanitizeName` vector 1: spaces become underscores, the newline cuts. -/
theorem sanitizeName_vector_spaces :
    SanitizeName (strBytes "Title With Spaces\nand more") = strBytes "title_with_spaces" := by
  decide

/-- `TestSanitizeName` vector 2: hyphen and bang coerced, then trimmed. -/
theorem sanitizeName_vector_hyphen :
    SanitizeName (strBytes "Hello-World!") = strBytes "hello_world" := by
  decide

/-- `TestSanitizeName` vector 3: 40 `a`s truncate to 30. -/
theorem sanitizeName_vector_long :
    SanitizeName (List.replicate 40 97) = List.replicate 30 97 := by
  decide

/-- `TestSanitizeName` vector 4: an all-invalid input falls back to `file`. -/
theorem sanitizeName_vector_fallback :
    SanitizeName (strBytes "__!__") = strBytes "file" := by
  decide

/-- `TestValidateSuggestion` vectors: the three valid and six invalid tokens
of the repository's test. -/
theorem validateSuggestion_vectors :
    ValidateSuggestion (strBytes "good_name") = .ok (strBytes "good_name") ∧
    ValidateSuggestion (strBytes "abc123") = .ok (strBytes "abc123") ∧
    ValidateSuggestion (strBytes "under_score") = .ok (strBytes "under_score") ∧
    (ValidateSuggestion (strBytes "")).isOk = false ∧
    (ValidateSuggestion (strBytes "has space")).isOk = false ∧
    (ValidateSuggestion (strBytes "UpperCase")).isOk = false ∧
    (ValidateSuggestion (strBytes "toolongtoolongtoolongtoolongtool")).isOk = false ∧
    (ValidateSuggestion (strBytes "with-hyphen")).isOk = false ∧
    (ValidateSuggestion (strBytes "with.dot")).isOk = false :=
  ⟨rfl, rfl, rfl, rfl, rfl, rfl, rfl, rfl, rfl⟩

/-- `TestDestinationPath`: the documented destination for
`/tmp/example/note.txt` with suggestion `suggested_name`. -/
theorem destination_vector :
    destination "/tmp/example/note.txt".data "suggested_name".data =
      "/tmp/example/suggested_name.txt".data := by
  decide

/-! ## Claim C7: the text guard -/

/-- C7: `EnsureTextSample` accepts the empty sample unchanged; rejects a
sample containing a NUL byte with the binary-content error; rejects a
NUL-free sample that is not valid UTF-8 with the invalid-encoding error; and
returns every other sample unchanged. -/
theorem EnsureTextSample_spec (sample : List Nat) (path : String) :
    EnsureTextSample [] path = .ok [] ∧
    (sample.contains 0 = true →
      EnsureTextSample sample path =
        .error (path ++ " does not look like a text file (NUL byte found)")) ∧
    (sample.contains 0 = false → validUTF8 sample = false →
      EnsureTextSample sample path = .error (path ++ " is not valid UTF-8 text")) ∧
    (sample.contains 0 = false → validUTF8 sample = true →
      EnsureTextSample sample path = .ok sample) := by
  refine ⟨rfl, ?_, ?_, ?_⟩
  · intro h
    have hne : sample ≠ [] := by rintro rfl; simp at h
    have hm : 0 ∈ sample := by simpa using h
    simp [EnsureTextSample, hne, hm]
  · intro h1 h2
    have hne : sample ≠ [] := by rintro rfl; exact absurd h2 (by decide)
    have hm : 0 ∉ sample := by simpa using h1
    simp [EnsureTextSample, hne, hm, h2]
  · intro h1 h2
    by_cases hne : sample = []
    · subst hne; rfl
    · have hm : 0 ∉ sample := by simpa using h1
      simp [EnsureTextSample, hne, hm, h2]

/-- Witness for C7 at concrete inputs: `"hi\x00"`-like bytes hit the NUL
error, the test's `0xFF 0xFE` bytes hit the encoding error, `"ok"` bytes pass
through. -/
theorem EnsureTextSample_spec_witness :
    EnsureTextSample [104, 105, 0] "sample.txt" =
      .error ("sample.txt" ++ " does not look like a text file (NUL byte found)") ∧
    EnsureTextSample [255, 254] "sample.txt" =
      .error ("sample.txt" ++ " is not valid UTF-8 text") ∧
    EnsureTextSample [111, 107] "sample.txt" = .ok [111, 107] :=
  ⟨(EnsureTextSample_spec [104, 105, 0] "sample.txt").2.1 (by decide),
   (EnsureTextSample_spec [255, 254] "sample.txt").2.2.1 (by decide) (by decide),
   (EnsureTextSample_spec [111, 107] "sample.txt").2.2.2 (by decide) (by decide)⟩

/-! ## Claim C5: non-2xx statuses -/

/-- C5: for every response status outside `200..299`, `GenerateName` fails
with the `model request failed` error whose text contains the decimal status
code and the raw response body verbatim, whatever the body and however the
JSON decoder would have fared. -/
theorem GenerateName_non2xx (status : Nat) (body : String) (decoded : Option chatResponse)
    (h : status < 200 ∨ 300 ≤ status) :
    GenerateNameResponse status body decoded =
      .error ("model request failed (" ++ toString status ++ "): " ++ body) ∧
    (toString status).data <:+:
      ("model request failed (" ++ toString status ++ "): " ++ body).data ∧
    body.data <:+: ("model request failed (" ++ toString status ++ "): " ++ body).data := by
  refine ⟨?_, ?_, ?_⟩
  · simp only [GenerateNameResponse, if_pos h]
  · exact ⟨"model request failed (".data, ("): " ++ body).data, by
      simp [String.data_append]⟩
  · exact ⟨("model request failed (" ++ toString status ++ "): ").data, [], by
      simp [String.data_append]⟩

/-- Witness for C5: a 400 response with a JSON error body produces the error
with both the code and the body in its text. -/
theorem GenerateName_non2xx_witness :
    GenerateNameResponse 400 "\x7b\"error\":\"invalid request\"\x7d" none =
      .error ("model request failed (" ++ toString 400 ++ "): " ++
        "\x7b\"error\":\"invalid request\"\x7d") ∧
    "400".data <:+: ("model request failed (" ++ toString 400 ++ "): " ++
        "\x7b\"error\":\"invalid request\"\x7d").data :=
  ⟨(GenerateName_non2xx 400 "\x7b\"error\":\"invalid request\"\x7d" none (by norm_num)).1,
   (GenerateName_non2xx 400 "\x7b\"error\":\"invalid request\"\x7d" none (by norm_num)).2.1⟩

/-! ## Claim C6: extraction from a parsed 2xx response -/

/-- C6: on a decoded response, `GenerateName` returns the message content
when the message is present with non-empty content, else the legacy
`response` field when non-empty, and fails with the `empty response` error
exactly when neither is populated. -/
theorem extractName_spec (d : chatResponse) :
    (∀ m, d.message = some m → m.content ≠ "" → extractName d = .ok m.content) ∧
    ((d.message = none ∨ ∃ m, d.message = some m ∧ m.content = "") → d.response ≠ "" →
      extractName d = .ok d.response) ∧
    (extractName d = .error "empty response from model" ↔
      (d.message = none ∨ ∃ m, d.message = some m ∧ m.content = "") ∧ d.response = "") := by
  refine ⟨?_, ?_, ?_⟩
  · rintro m hm hc
    simp [extractName, hm, hc]
  · rintro (h | ⟨m, hm, hc⟩) hr
    · simp [extractName, h, hr]
    · simp [extractName, hm, hc, hr]
  · rcases hM : d.message with _ | m
    · by_cases hr : d.response = "" <;> simp [extractName, hM, hr]
    · by_cases hc : m.content = "" <;> by_cases hr : d.response = "" <;>
        simp [extractName, hM, hc, hr]

/-- Witness for C6: the test's assistant message is returned; a legacy
`response` field is returned when the message is absent; neither populated
yields the empty-response error. -/
theorem extractName_spec_witness :
    extractName ⟨some ⟨"assistant", "suggested_name"⟩, ""⟩ = .ok "suggested_name" ∧
    extractName ⟨none, "legacy"⟩ = .ok "legacy" ∧
    extractName ⟨none, ""⟩ = .error "empty response from model" :=
  ⟨(extractName_spec _).1 ⟨"assistant", "suggested_name"⟩ rfl (by decide),
   (extractName_spec _).2.1 (Or.inl rfl) (by decide),
   (extractName_spec _).2.2.mpr ⟨Or.inl rfl, rfl⟩⟩

/-! ## Claim C9: the suggestion validator -/

/-- C9: `ValidateSuggestion` accepts exactly the non-empty tokens of at most
30 characters over `[a-z0-9_]`, returning the token unchanged, and fails with
an error on every other token. -/
theorem ValidateSuggestion_spec (s : List Nat) :
    (ValidateSuggestion s = .ok s ↔
      s ≠ [] ∧ s.length ≤ 30 ∧ ∀ b ∈ s, isNameChar b = true) ∧
    (¬(s ≠ [] ∧ s.length ≤ 30 ∧ ∀ b ∈ s, isNameChar b = true) →
      ∃ msg, ValidateSuggestion s = .error msg) := by
  constructor
  · constructor
    · intro h
      by_cases h1 : s = []
      · simp [ValidateSuggestion, h1] at h
      by_cases h2 : 30 < s.length
      · simp [ValidateSuggestion, h1, h2] at h
      by_cases h3 : s.all isNameChar
      · exact ⟨h1, Nat.not_lt.mp h2, List.all_eq_true.mp h3⟩
      · simp [ValidateSuggestion, h1, h2, h3] at h
    · rintro ⟨h1, h2, h3⟩
      simp [ValidateSuggestion, h1, Nat.not_lt.mpr h2, List.all_eq_true.mpr h3]
  · intro h
    by_cases h1 : s = []
    · exact ⟨"suggestion is empty", by simp [ValidateSuggestion, h1]⟩
    by_cases h2 : 30 < s.length
    · exact ⟨"suggestion is longer than 30 characters", by simp [ValidateSuggestion, h1, h2]⟩
    by_cases h3 : s.all isNameChar
    · exact absurd ⟨h1, Nat.not_lt.mp h2, List.all_eq_true.mp h3⟩ h
    · exact ⟨"suggestion contains a character outside a-z, 0-9, _",
        by simp [ValidateSuggestion, h1, h2, h3]⟩

/-- Witness for C9: `good_name` is accepted unchanged, `UpperCase` is
rejected. -/
theorem ValidateSuggestion_spec_witness :
    ValidateSuggestion (strBytes "good_name") = .ok (strBytes "good_name") ∧
    (∃ msg, ValidateSuggestion (strBytes "UpperCase") = .error msg) :=
  ⟨(ValidateSuggestion_spec (strBytes "good_name")).1.mpr (by decide),
   (ValidateSuggestion_spec (strBytes "UpperCase")).2 (by decide)⟩

/-! ## Claim C3: rename no-op and conflict branches -/

/-- C3: when source and destination absolutize identically, `RenameFile`
reports success and leaves the filesystem untouched; otherwise, when a file
already exists at the computed destination, it fails with the
destination-conflict error, again leaving the filesystem untouched. -/
theorem RenameFile_spec (cwd : List Char) (fs : List (List Char)) (path newName : List Char) :
    (absPath cwd path = absPath cwd (destination path newName) →
      RenameFile cwd fs path newName = (fs, .ok ())) ∧
    (absPath cwd path ≠ absPath cwd (destination path newName) →
      fs.contains (destination path newName) = true →
      RenameFile cwd fs path newName =
        (fs, .error ("destination already exists - " ++
          String.mk (destination path newName)))) := by
  constructor
  · intro h
    simp [RenameFile, h]
  · intro h1 h2
    have hm : destination path newName ∈ fs := by simpa using h2
    simp [RenameFile, h1, hm]

/-- Witness for C3: renaming `/a/note.txt` to its own name is a no-op even
though the file exists, and renaming it to `renamed` while `/a/renamed.txt`
exists fails with the conflict error, leaving the filesystem unchanged. -/
theorem RenameFile_spec_witness :
    RenameFile "/w".data ["/a/note.txt".data] "/a/note.txt".data "note".data =
      (["/a/note.txt".data], .ok ()) ∧
    RenameFile "/w".data ["/a/note.txt".data, "/a/renamed.txt".data] "/a/note.txt".data
        "renamed".data =
      (["/a/note.txt".data, "/a/renamed.txt".data],
        .error ("destination already exists - " ++
          String.mk (destination "/a/note.txt".data "renamed".data))) :=
  ⟨(RenameFile_spec "/w".data ["/a/note.txt".data] "/a/note.txt".data "note".data).1
      (by decide),
   (RenameFile_spec "/w".data ["/a/note.txt".data, "/a/renamed.txt".data]
      "/a/note.txt".data "renamed".data).2 (by decide) (by decide)⟩

/-! ## Claim C2: the sample reader at a code-point boundary

The current `ReadSample` returns the raw first `readBytes` bytes with no
UTF-8 boundary handling, so an 8 KiB cut that lands inside a code point
yields a sample ending in a truncated sequence (which `EnsureTextSample`
subsequently rejects as invalid UTF-8).  The theorem exhibits this on a file
of 8191 `a` bytes followed by the two-byte code point `é` (`C3 A9`). -/

/-- The ASCII byte `a` contributes nothing to UTF-8 validity of the rest. -/
theorem validUTF8_cons_97 (l : List Nat) : validUTF8 (97 :: l) = validUTF8 l := rfl

/-- A run of ASCII `a` bytes does not affect UTF-8 validity of what follows. -/
theorem validUTF8_replicate_a_append (n : Nat) (l : List Nat) :
    validUTF8 (List.replicate n 97 ++ l) = validUTF8 l := by
  induction n with
  | zero => simp
  | succ k ih =>
    rw [List.replicate_succ, List.cons_append, validUTF8_cons_97, ih]

/-- C2 (failing input): for the valid-UTF-8 file content consisting of 8191
`a` bytes followed by `é` (`C3 A9`), `ReadSample` returns the first 8192
bytes verbatim, cutting the code point in half: the sample ends with the lone
lead byte `C3` and is not valid UTF-8, i.e. it ends with a truncated
multi-byte code point instead of being trimmed back. -/
theorem ReadSample_splits_trailing_rune :
    ReadSample (List.replicate 8191 97 ++ [195, 169]) = List.replicate 8191 97 ++ [195] ∧
    validUTF8 (List.replicate 8191 97 ++ [195, 169]) = true ∧
    validUTF8 (ReadSample (List.replicate 8191 97 ++ [195, 169])) = false := by
  have htake : ReadSample (List.replicate 8191 97 ++ [195, 169]) =
      List.replicate 8191 97 ++ [195] := by
    rw [ReadSample, readBytes, List.take_append_eq_append_take]
    norm_num [List.take_replicate]
  refine ⟨htake, ?_, ?_⟩
  · rw [validUTF8_replicate_a_append]; decide
  · rw [htake, validUTF8_replicate_a_append]; decide

/-! ## Path lemmas: the final element of the destination -/

/-- Splitting distributes over a separator. -/
theorem splitOnSepAux_append (ys : List Char) :
    ∀ (xs acc : List Char),
      splitOnSepAux (xs ++ '/' :: ys) acc = splitOnSepAux xs acc ++ splitOnSep ys := by
  intro xs
  induction xs with
  | nil => intro acc; simp [splitOnSepAux, splitOnSep]
  | cons c xs ih =>
    intro acc
    by_cases hc : c = '/'
    · subst hc; simp [splitOnSepAux, ih]
    · simp [splitOnSepAux, hc, ih]

/-- Splitting a separator-free tail yields a single element. -/
theorem splitOnSepAux_no_sep :
    ∀ (ys acc : List Char), (∀ c ∈ ys, c ≠ '/') →
      splitOnSepAux ys acc = [acc.reverse ++ ys] := by
  intro ys
  induction ys with
  | nil => intro acc _; simp [splitOnSepAux]
  | cons c ys ih =>
    intro acc h
    have hc : c ≠ '/' := h c (by simp)
    rw [splitOnSepAux, if_neg hc, ih (c :: acc) (fun d hd => h d (by simp [hd]))]
    simp

/-- A normal element (non-empty, neither `.` nor `..`) is appended by
`cleanStep`. -/
theorem cleanStep_normal (rooted : Bool) (out : List (List Char)) (el : List Char)
    (h1 : el ≠ []) (h2 : el ≠ ['.']) (h3 : el ≠ ['.', '.']) :
    cleanStep rooted out el = out ++ [el] := by
  simp [cleanStep, h1, h2, h3]

/-- `joinElems` of a snoc list. -/
theorem joinElems_concat (e : List Char) :
    ∀ out : List (List Char),
      joinElems (out ++ [e]) = if out = [] then e else joinElems out ++ '/' :: e := by
  intro out
  induction out with
  | nil => simp [joinElems]
  | cons y out' ih =>
    rw [List.cons_append, joinElems, if_neg (by simp : out' ++ [e] ≠ []), ih]
    by_cases h' : out' = []
    · subst h'; simp [joinElems]
    · rw [if_neg h', if_neg (by simp : y :: out' ≠ []), joinElems, if_neg h']
      simp

/-- The last element survives as a suffix of the joined path. -/
theorem suffix_joinElems_concat (out : List (List Char)) (e : List Char) :
    e <:+ joinElems (out ++ [e]) := by
  rw [joinElems_concat]
  split
  · exact List.suffix_rfl
  · exact ⟨joinElems out ++ ['/'], by simp⟩

/-- A suffix stays a suffix after prepending, inside the final
empty-path guard of `clean`. -/
theorem suffix_ite (elem pre x : List Char) (h : elem <:+ x) (hne : elem ≠ []) :
    elem <:+ (if pre ++ x = [] then ['.'] else pre ++ x) := by
  obtain ⟨t, ht⟩ := h
  have h2 : elem <:+ pre ++ x := ⟨pre ++ t, by rw [List.append_assoc, ht]⟩
  have h3 : pre ++ x ≠ [] := by
    intro he
    obtain ⟨u, hu⟩ := h2
    rw [he] at hu
    exact hne (List.append_eq_nil.mp hu).2
  rw [if_neg h3]
  exact h2

/-- `clean` never returns the empty path. -/
theorem clean_ne_nil (p : List Char) : clean p ≠ [] := by
  unfold clean
  split
  · simp
  · dsimp only
    split <;> split <;> simp_all

/-- `filepath.Dir` never returns the empty path. -/
theorem dirPath_ne_nil (p : List Char) : dirPath p ≠ [] := clean_ne_nil _

/-- A normal final element survives `filepath.Clean` as a suffix. -/
theorem suffix_clean_append (d elem : List Char) (h1 : elem ≠ []) (h2 : elem ≠ ['.'])
    (h3 : elem ≠ ['.', '.']) (h4 : ∀ c ∈ elem, c ≠ '/') :
    elem <:+ clean (d ++ '/' :: elem) := by
  have hp : d ++ '/' :: elem ≠ [] := by simp
  have h5 : splitOnSep elem = [elem] := by
    rw [splitOnSep, splitOnSepAux_no_sep elem [] h4]
    simp
  have hsplit : splitOnSep (d ++ '/' :: elem) = splitOnSep d ++ [elem] := by
    rw [splitOnSep, splitOnSepAux_append, h5]
    rfl
  unfold clean
  rw [if_neg hp]
  simp only [hsplit, List.foldl_append, List.foldl_cons, List.foldl_nil,
    cleanStep_normal _ _ _ h1 h2 h3]
  exact suffix_ite elem _ _ (suffix_joinElems_concat _ _) h1

/-! ## Lemmas about `filepath.Ext` -/

/-- The backward scan returns either nothing or a dot-led suffix. -/
theorem extAux_shape : ∀ (l acc : List Char), extAux l acc = [] ∨ ∃ t, extAux l acc = '.' :: t := by
  intro l
  induction l with
  | nil => intro acc; left; rfl
  | cons c rest ih =>
    intro acc
    by_cases hs : c = '/'
    · left; simp [extAux, hs]
    by_cases hd : c = '.'
    · right; exact ⟨acc, by simp [extAux, hs, hd]⟩
    · simpa [extAux, hs, hd] using ih (c :: acc)

/-- The extension contains no separator. -/
theorem extAux_no_slash : ∀ (l acc : List Char), (∀ c ∈ acc, c ≠ '/') →
    ∀ c ∈ extAux l acc, c ≠ '/' := by
  intro l
  induction l with
  | nil => intro acc _ c hc; simp [extAux] at hc
  | cons b rest ih =>
    intro acc h c hc
    by_cases hs : b = '/'
    · simp [extAux, hs] at hc
    by_cases hd : b = '.'
    · rw [extAux, if_neg hs, if_pos hd] at hc
      rcases List.mem_cons.mp hc with rfl | hm
      · subst hd; exact hs
      · exact h c hm
    · refine ih (b :: acc) ?_ c (by simpa [extAux, hs, hd] using hc)
      intro d hd'
      rcases List.mem_cons.mp hd' with rfl | hm
      · exact hs
      · exact h d hm

/-- `filepath.Ext` is empty or starts with the dot. -/
theorem extPath_shape (p : List Char) : extPath p = [] ∨ ∃ t, extPath p = '.' :: t :=
  extAux_shape p.reverse []

/-- `filepath.Ext` contains no separator. -/
theorem extPath_no_slash (p : List Char) : ∀ c ∈ extPath p, c ≠ '/' :=
  extAux_no_slash p.reverse [] (by simp)

/-- A sanitized-name character is neither the separator nor a dot. -/
theorem nameCharC_ne (c : Char) (h : isNameCharC c = true) : c ≠ '/' ∧ c ≠ '.' :=
  ⟨fun e => by subst e; exact absurd h (by decide),
   fun e => by subst e; exact absurd h (by decide)⟩

/-! ## Claim C4: the destination preserves the extension -/

/-- C4: the destination `RenameFile` computes is the source's directory
joined with the sanitized name plus the source's extension; that extension is
empty or dot-led; and the name-plus-extension element survives as the final
segment (a suffix) of the destination, for every sanitized (non-empty,
`[a-z0-9_]`) name. -/
theorem destination_spec (path newName : List Char)
    (h1 : newName ≠ []) (h2 : ∀ c ∈ newName, isNameCharC c = true) :
    destination path newName = joinPath (dirPath path) (newName ++ extPath path) ∧
    (extPath path = [] ∨ ∃ t, extPath path = '.' :: t) ∧
    (newName ++ extPath path) <:+ destination path newName := by
  refine ⟨rfl, extPath_shape path, ?_⟩
  obtain ⟨c, name', rfl⟩ : ∃ c t, newName = c :: t := by
    cases newName with
    | nil => exact absurd rfl h1
    | cons c t => exact ⟨c, t, rfl⟩
  have hc := nameCharC_ne c (h2 c (by simp))
  have he1 : c :: name' ++ extPath path ≠ [] := by simp
  have he2 : c :: name' ++ extPath path ≠ ['.'] := by
    rw [List.cons_append]
    intro h
    injection h with ha _
    exact hc.2 ha
  have he3 : c :: name' ++ extPath path ≠ ['.', '.'] := by
    rw [List.cons_append]
    intro h
    injection h with ha _
    exact hc.2 ha
  have he4 : ∀ ch ∈ c :: name' ++ extPath path, ch ≠ '/' := by
    intro ch hch
    rw [List.cons_append, List.mem_cons] at hch
    rcases hch with rfl | hch
    · exact hc.1
    · rcases List.mem_append.mp hch with hn | he
      · exact (nameCharC_ne ch (h2 ch (by simp [hn]))).1
      · exact extPath_no_slash path ch he
  show c :: name' ++ extPath path <:+ joinPath (dirPath path) (c :: name' ++ extPath path)
  rw [joinPath, if_neg (dirPath_ne_nil path)]
  exact suffix_clean_append _ _ he1 he2 he3 he4

/-- Witness for C4 at the documented example: `/tmp/example/note.txt` with
name `suggested_name` goes to `/tmp/example/suggested_name.txt`, with
`suggested_name.txt` the preserved final element. -/
theorem destination_spec_witness :
    destination "/tmp/example/note.txt".data "suggested_name".data =
      joinPath (dirPath "/tmp/example/note.txt".data)
        ("suggested_name".data ++ extPath "/tmp/example/note.txt".data) ∧
    ("suggested_name".data ++ extPath "/tmp/example/note.txt".data) <:+
      destination "/tmp/example/note.txt".data "suggested_name".data ∧
    destination "/tmp/example/note.txt".data "suggested_name".data =
      "/tmp/example/suggested_name.txt".data :=
  ⟨(destination_spec "/tmp/example/note.txt".data "suggested_name".data
      (by decide) (by decide)).1,
   (destination_spec "/tmp/example/note.txt".data "suggested_name".data
      (by decide) (by decide)).2.2,
   by decide⟩

/-! ## Claim C10: hidden files donate their whole basename as extension -/

/-- Scanning backwards through dot-free, separator-free characters reaches
the dot and returns everything from it on. -/
theorem extAux_through : ∀ (l acc m : List Char),
    (∀ c ∈ l, c ≠ '/' ∧ c ≠ '.') →
    extAux (l ++ '.' :: m) acc = '.' :: (l.reverse ++ acc) := by
  intro l
  induction l with
  | nil => intro acc m _; simp [extAux]
  | cons b rest ih =>
    intro acc m h
    have hb := h b (by simp)
    rw [List.cons_append, extAux, if_neg hb.1, if_neg hb.2,
      ih (b :: acc) m (fun d hd => h d (by simp [hd]))]
    simp

/-- C10: when the basename starts with a dot and has no other dot (a hidden
file), `filepath.Ext` returns the entire basename, so the destination is the
directory joined with the new name followed by the whole original
basename. -/
theorem destination_hidden_file (path newName : List Char)
    (h1 : (baseName path).head? = some '.')
    (h2 : ∀ c ∈ (baseName path).tail, c ≠ '.') :
    extPath path = baseName path ∧
    destination path newName = joinPath (dirPath path) (newName ++ baseName path) := by
  have hext : extPath path = baseName path := by
    rcases hB : baseName path with _ | ⟨c, rest⟩
    · rw [hB] at h1; simp at h1
    · have hc : c = '.' := by rw [hB] at h1; simpa using h1
      subst hc
      have htw : path.reverse.takeWhile (· ≠ '/') = rest.reverse ++ ['.'] := by
        have h' := congrArg List.reverse hB
        simpa [baseName] using h'
      have hdecomp :
          path.reverse = (rest.reverse ++ ['.']) ++ path.reverse.dropWhile (· ≠ '/') := by
        rw [← htw, List.takeWhile_append_dropWhile]
      have hmem : ∀ d ∈ rest.reverse, d ≠ '/' ∧ d ≠ '.' := by
        intro d hd
        rw [List.mem_reverse] at hd
        constructor
        · have hdm : d ∈ path.reverse.takeWhile (· ≠ '/') := by
            rw [htw]; simp [hd]
          simpa using List.mem_takeWhile_imp hdm
        · rw [hB] at h2
          exact h2 d (by simpa using hd)
      rw [extPath, hdecomp, List.append_assoc, List.singleton_append,
        extAux_through rest.reverse [] _ hmem]
      simp
  refine ⟨hext, ?_⟩
  rw [show destination path newName = joinPath (dirPath path) (newName ++ extPath path)
    from rfl, hext]

/-- Witness for C10 at the example: `/dir/.bashrc` renamed to `notes` goes to
`/dir/notes.bashrc` — the whole basename `.bashrc` is the extension. -/
theorem destination_hidden_file_witness :
    extPath "/dir/.bashrc".data = baseName "/dir/.bashrc".data ∧
    destination "/dir/.bashrc".data "notes".data = "/dir/notes.bashrc".data :=
  ⟨(destination_hidden_file "/dir/.bashrc".data "notes".data (by decide) (by decide)).1,
   ((destination_hidden_file "/dir/.bashrc".data "notes".data (by decide) (by decide)).2).trans
     (by decide)⟩

/-! ## Sanitizer lemmas -/

/-- Kept-alphabet bytes are ASCII. -/
theorem nameChar_le (b : Nat) (h : isNameChar b = true) : b ≤ 127 := by
  simp only [isNameChar, decide_eq_true_eq] at h
  omega

/-- Kept-alphabet bytes are not white space. -/
theorem nameChar_not_space (b : Nat) (h : isNameChar b = true) : isSpaceRune b = false := by
  simp only [isNameChar, decide_eq_true_eq] at h
  simp only [isSpaceRune, decide_eq_false_iff_not]
  omega

/-- Kept-alphabet bytes are their own lower case. -/
theorem nameChar_toLower (b : Nat) (h : isNameChar b = true) : toLowerRune b = b := by
  simp only [isNameChar, decide_eq_true_eq] at h
  unfold toLowerRune
  rw [if_neg (by omega), if_neg (by omega), if_neg (by omega)]

/-- An ASCII first byte decodes to itself with width one. -/
theorem decodeRune_ascii (b : Nat) (rest : List Nat) (h : b ≤ 127) :
    decodeRune (b :: rest) = (b, 1) := by
  simp [decodeRune, h]

/-- An ASCII last byte decodes to itself with width one. -/
theorem decodeLastRune_ascii (b : Nat) (rest : List Nat) (h : b ≤ 127) :
    decodeLastRune (b :: rest) = (b, 1) := by
  simp [decodeLastRune, h]

/-- ASCII code points encode as the single byte. -/
theorem encodeRune_ascii (b : Nat) (h : b ≤ 127) : encodeRune b = [b] := by
  rw [encodeRune, if_pos (by omega)]

/-- A byte appearing as the head of a list is a member. -/
theorem memOfHead {l : List Nat} {b : Nat} (h : l.head? = some b) : b ∈ l := by
  cases l with
  | nil => simp at h
  | cons c t =>
    simp only [List.head?_cons, Option.some.injEq] at h
    simp [h]

/-- A byte appearing as the last element of a list is a member. -/
theorem memOfGetLast {l : List Nat} {b : Nat} (h : l.getLast? = some b) : b ∈ l := by
  rw [← List.head?_reverse] at h
  exact List.mem_reverse.mp (memOfHead h)

/-- `trimLeftSpace` leaves a list alone when its first rune is an ASCII
non-space byte. -/
theorem trimLeftSpace_eq_self (fuel : Nat) (l : List Nat)
    (h : ∀ b, l.head? = some b → isSpaceRune b = false ∧ b ≤ 127) :
    trimLeftSpace fuel l = l := by
  cases fuel with
  | zero => rfl
  | succ f =>
    cases l with
    | nil => rfl
    | cons b rest =>
      obtain ⟨hs, hle⟩ := h b rfl
      simp [trimLeftSpace, decodeRune_ascii b rest hle, hs]

/-- `trimRightSpaceRev` leaves a reversed list alone when its first entry
(the last byte of the string) is an ASCII non-space byte. -/
theorem trimRightSpaceRev_eq_self (fuel : Nat) (l : List Nat)
    (h : ∀ b, l.head? = some b → isSpaceRune b = false ∧ b ≤ 127) :
    trimRightSpaceRev fuel l = l := by
  cases fuel with
  | zero => rfl
  | succ f =>
    cases l with
    | nil => rfl
    | cons b rest =>
      obtain ⟨hs, hle⟩ := h b rfl
      simp [trimRightSpaceRev, decodeLastRune_ascii b rest hle, hs]

/-- `trimSpace` fixes any list whose first and last bytes are ASCII
non-space. -/
theorem trimSpace_eq_self (l : List Nat)
    (hh : ∀ b, l.head? = some b → isSpaceRune b = false ∧ b ≤ 127)
    (hl : ∀ b, l.getLast? = some b → isSpaceRune b = false ∧ b ≤ 127) :
    trimSpace l = l := by
  show (trimRightSpaceRev (trimLeftSpace l.length l).length
    (trimLeftSpace l.length l).reverse).reverse = l
  rw [trimLeftSpace_eq_self l.length l hh]
  rw [trimRightSpaceRev_eq_self l.length l.reverse
    (fun b hb => hl b (by rwa [List.head?_reverse] at hb))]
  exact List.reverse_reverse l

/-- The newline cut is the identity on newline-free lists. -/
theorem cutAtNewline_eq_self (l : List Nat) (h : 10 ∉ l) : cutAtNewline l = l := by
  rw [cutAtNewline, List.indexOf_eq_length.mpr h, List.take_length]

/-- `toLowerBytes` fixes kept-alphabet lists, given enough fuel. -/
theorem toLowerBytes_eq_self : ∀ (l : List Nat) (fuel : Nat),
    (∀ b ∈ l, isNameChar b = true) → l.length ≤ fuel → toLowerBytes fuel l = l := by
  intro l
  induction l with
  | nil => intro fuel _ _; cases fuel <;> rfl
  | cons b rest ih =>
    intro fuel hmem hlen
    cases fuel with
    | zero => simp at hlen
    | succ f =>
      have hb := hmem b (by simp)
      have hle := nameChar_le b hb
      simp [toLowerBytes, decodeRune_ascii b rest hle, nameChar_toLower b hb,
        encodeRune_ascii b hle,
        ih f (fun x hx => hmem x (by simp [hx])) (by simpa using hlen)]

/-- Every byte `replaceInvalid` emits is in the kept alphabet. -/
theorem replaceInvalid_mem : ∀ (fuel : Nat) (l : List Nat) (b : Nat),
    b ∈ replaceInvalid fuel l → isNameChar b = true := by
  intro fuel
  induction fuel with
  | zero => intro l b hb; simp [replaceInvalid] at hb
  | succ f ih =>
    intro l b hb
    cases l with
    | nil => simp [replaceInvalid] at hb
    | cons c rest =>
      by_cases hc : isNameChar c = true
      · rw [replaceInvalid, if_pos hc] at hb
        rcases List.mem_cons.mp hb with rfl | hm
        · exact hc
        · exact ih _ _ hm
      · rw [replaceInvalid, if_neg hc] at hb
        rcases List.mem_cons.mp hb with rfl | hm
        · decide
        · exact ih _ _ hm

/-- `replaceInvalid` fixes kept-alphabet lists, given enough fuel. -/
theorem replaceInvalid_eq_self : ∀ (l : List Nat) (fuel : Nat),
    (∀ b ∈ l, isNameChar b = true) → l.length ≤ fuel → replaceInvalid fuel l = l := by
  intro l
  induction l with
  | nil => intro fuel _ _; cases fuel <;> rfl
  | cons b rest ih =>
    intro fuel hmem hlen
    cases fuel with
    | zero => simp at hlen
    | succ f =>
      rw [replaceInvalid, if_pos (hmem b (by simp)),
        ih f (fun x hx => hmem x (by simp [hx])) (by simpa using hlen)]

/-- The head surviving an underscore `dropWhile` is not an underscore. -/
theorem head?_dropWhile_not_95 : ∀ (l : List Nat) (b : Nat),
    (l.dropWhile (· == 95)).head? = some b → b ≠ 95 := by
  intro l
  induction l with
  | nil => intro b hb; simp at hb
  | cons c rest ih =>
    intro b hb
    by_cases hc : c = 95
    · rw [List.dropWhile_cons, if_pos (by simp [hc])] at hb
      exact ih b hb
    · rw [List.dropWhile_cons, if_neg (by simpa using hc)] at hb
      simp only [List.head?_cons, Option.some.injEq] at hb
      rw [← hb]
      exact hc

/-- `trimUnderscore` yields a sublist. -/
theorem trimUnderscore_sublist (l : List Nat) : List.Sublist (trimUnderscore l) l := by
  show List.Sublist (((l.dropWhile (· == 95)).reverse.dropWhile (· == 95)).reverse) l
  have h1 : List.Sublist (l.dropWhile (· == 95)) l :=
    (List.dropWhile_suffix (· == 95)).sublist
  have h2 : List.Sublist ((l.dropWhile (· == 95)).reverse.dropWhile (· == 95))
      (l.dropWhile (· == 95)).reverse :=
    (List.dropWhile_suffix (· == 95)).sublist
  have h3 := h2.reverse
  rw [List.reverse_reverse] at h3
  exact h3.trans h1

/-- The trimmed name does not start with an underscore. -/
theorem trimUnderscore_head? (l : List Nat) : (trimUnderscore l).head? ≠ some 95 := by
  unfold trimUnderscore
  intro hcon
  rw [List.head?_reverse] at hcon
  have hsne : (l.dropWhile (· == 95)).reverse.dropWhile (· == 95) ≠ [] := by
    intro he
    rw [he] at hcon
    simp at hcon
  obtain ⟨pre, hpre⟩ : (l.dropWhile (· == 95)).reverse.dropWhile (· == 95) <:+
      (l.dropWhile (· == 95)).reverse := List.dropWhile_suffix (· == 95)
  have hrev : (l.dropWhile (· == 95)).reverse.getLast? = some 95 := by
    rw [← hpre, List.getLast?_append, hcon]
    rfl
  rw [List.getLast?_reverse] at hrev
  exact head?_dropWhile_not_95 l 95 hrev rfl

/-- The trimmed name does not end with an underscore. -/
theorem trimUnderscore_getLast? (l : List Nat) : (trimUnderscore l).getLast? ≠ some 95 := by
  unfold trimUnderscore
  intro hcon
  rw [List.getLast?_reverse] at hcon
  exact head?_dropWhile_not_95 _ 95 hcon rfl

/-- `trimUnderscore` fixes lists without a leading or trailing underscore. -/
theorem trimUnderscore_eq_self (l : List Nat) (h1 : l.head? ≠ some 95)
    (h2 : l.getLast? ≠ some 95) : trimUnderscore l = l := by
  have hd : l.dropWhile (· == 95) = l := by
    cases l with
    | nil => rfl
    | cons b rest =>
      have hb : b ≠ 95 := fun e => h1 (by simp [e])
      rw [List.dropWhile_cons, if_neg (by simpa using hb)]
  unfold trimUnderscore
  rw [hd]
  rcases hrev : l.reverse with _ | ⟨c, rl⟩
  · have hnil : l = [] := by simpa using congrArg List.reverse hrev
    simp [hnil]
  · have hc : c ≠ 95 := by
      have hgl : l.getLast? = some c := by rw [← List.head?_reverse, hrev]; rfl
      exact fun e => h2 (by rw [hgl, e])
    rw [List.dropWhile_cons, if_neg (by simpa using hc), ← hrev,
      List.reverse_reverse]

/-- The invariants of the sanitizer pipeline before the fallback check:
kept alphabet only, at most 30 bytes, no underscore at either end. -/
theorem sanitizeCore_props (raw : List Nat) :
    (∀ b ∈ SanitizeCore raw, isNameChar b = true) ∧
    (SanitizeCore raw).length ≤ 30 ∧
    (SanitizeCore raw).head? ≠ some 95 ∧
    (SanitizeCore raw).getLast? ≠ some 95 := by
  set n3 := toLowerBytes (cutAtNewline (trimSpace raw)).length
    (cutAtNewline (trimSpace raw)) with hn3
  set n4 := replaceInvalid n3.length n3 with hn4
  set n5 := if 30 < n4.length then n4.take 30 else n4 with hn5
  have hcore : SanitizeCore raw = trimUnderscore n5 := rfl
  have hm4 : ∀ b ∈ n4, isNameChar b = true := fun b hb => replaceInvalid_mem _ _ b hb
  have hm5 : ∀ b ∈ n5, isNameChar b = true := by
    intro b hb
    rw [hn5] at hb
    split at hb
    · exact hm4 b (List.take_subset 30 n4 hb)
    · exact hm4 b hb
  have hl5 : n5.length ≤ 30 := by
    rw [hn5]
    split
    · simp
    · omega
  refine ⟨?_, ?_, ?_, ?_⟩
  · rw [hcore]
    exact fun b hb => hm5 b ((trimUnderscore_sublist n5).subset hb)
  · rw [hcore]
    exact le_trans (trimUnderscore_sublist n5).length_le hl5
  · rw [hcore]
    exact trimUnderscore_head? n5
  · rw [hcore]
    exact trimUnderscore_getLast? n5

/-- The fallback token itself satisfies every output invariant. -/
theorem fileFallback_props :
    fileFallback ≠ [] ∧ (∀ b ∈ fileFallback, isNameChar b = true) ∧
    fileFallback.length ≤ 30 ∧ fileFallback.head? ≠ some 95 ∧
    fileFallback.getLast? ≠ some 95 := by
  decide

/-- The output invariants of `SanitizeName`. -/
theorem sanitizeName_props (raw : List Nat) :
    SanitizeName raw ≠ [] ∧ (∀ b ∈ SanitizeName raw, isNameChar b = true) ∧
    (SanitizeName raw).length ≤ 30 ∧ (SanitizeName raw).head? ≠ some 95 ∧
    (SanitizeName raw).getLast? ≠ some 95 := by
  by_cases hc : SanitizeCore raw = []
  · rw [show SanitizeName raw = fileFallback from by
      show (if SanitizeCore raw = [] then fileFallback else SanitizeCore raw) = fileFallback
      rw [if_pos hc]]
    exact fileFallback_props
  · rw [show SanitizeName raw = SanitizeCore raw from by
      show (if SanitizeCore raw = [] then fileFallback else SanitizeCore raw) = SanitizeCore raw
      rw [if_neg hc]]
    have h := sanitizeCore_props raw
    exact ⟨hc, h.1, h.2.1, h.2.2.1, h.2.2.2⟩

/-! ## Claim C1: the sanitizer's output invariants -/

/-- C1: for every input, `SanitizeName` returns a non-empty token over
`[a-z0-9_]`, at most 30 bytes long, with no leading or trailing underscore;
and when the pipeline before the fallback check empties the string, the fixed
token `file` is returned. -/
theorem SanitizeName_spec (raw : List Nat) :
    SanitizeName raw ≠ [] ∧
    (∀ b ∈ SanitizeName raw, isNameChar b = true) ∧
    (SanitizeName raw).length ≤ 30 ∧
    (SanitizeName raw).head? ≠ some 95 ∧
    (SanitizeName raw).getLast? ≠ some 95 ∧
    (SanitizeCore raw = [] → SanitizeName raw = fileFallback) := by
  obtain ⟨a, b, c, d, e⟩ := sanitizeName_props raw
  refine ⟨a, b, c, d, e, fun h => ?_⟩
  show (if SanitizeCore raw = [] then fileFallback else SanitizeCore raw) = fileFallback
  rw [if_pos h]

/-- Witness for C1: the all-invalid input `__!__` empties the pipeline and
falls back to `file`; an ordinary input gives a non-empty result. -/
theorem SanitizeName_spec_witness :
    SanitizeName (strBytes "__!__") = fileFallback ∧
    SanitizeName (strBytes "Hello") ≠ [] :=
  ⟨(SanitizeName_spec (strBytes "__!__")).2.2.2.2.2 (by decide),
   (SanitizeName_spec (strBytes "Hello")).1⟩

/-! ## Claim C8: idempotence of the sanitizer -/

/-- C8: `SanitizeName` is idempotent — sanitizing a sanitized name changes
nothing, because the output invariants make every pipeline stage the
identity. -/
theorem SanitizeName_idempotent (raw : List Nat) :
    SanitizeName (SanitizeName raw) = SanitizeName raw := by
  obtain ⟨hne, hmem, hlen, hhead, hlast⟩ := sanitizeName_props raw
  set out := SanitizeName raw with hout
  have hh : ∀ b, out.head? = some b → isSpaceRune b = false ∧ b ≤ 127 := by
    intro b hb
    have hbm := memOfHead hb
    exact ⟨nameChar_not_space b (hmem b hbm), nameChar_le b (hmem b hbm)⟩
  have hl : ∀ b, out.getLast? = some b → isSpaceRune b = false ∧ b ≤ 127 := by
    intro b hb
    have hbm := memOfGetLast hb
    exact ⟨nameChar_not_space b (hmem b hbm), nameChar_le b (hmem b hbm)⟩
  have h1 : trimSpace out = out := trimSpace_eq_self out hh hl
  have h10 : (10 : Nat) ∉ out := fun hm => absurd (hmem 10 hm) (by decide)
  have h2 : cutAtNewline out = out := cutAtNewline_eq_self out h10
  have h3 : toLowerBytes out.length out = out :=
    toLowerBytes_eq_self out out.length hmem le_rfl
  have h4 : replaceInvalid out.length out = out :=
    replaceInvalid_eq_self out out.length hmem le_rfl
  have h5 : ¬30 < out.length := by omega
  have h6 : trimUnderscore out = out := trimUnderscore_eq_self out hhead hlast
  have hcore : SanitizeCore out = out := by
    unfold SanitizeCore
    dsimp only
    rw [h1, h2, h3, h4, if_neg h5, h6]
  show (if SanitizeCore out = [] then fileFallback else SanitizeCore out) = out
  rw [hcore, if_neg hne]

end Naduke
